import Mathlib

/-!
Verification of the notebook step deriver
(`src/frontend/src/metabase/query_builder/components/notebook/lib/steps.ts`).

The deriver converts a structured, possibly multi-stage query into an ordered
sequence of notebook "steps".  The file below embeds, in order:

* a model of the metabase-lib query collaborators that `steps.ts` consumes
  (these live outside the repository snapshot, so they are modelled from the
  specification's description of their interfaces);
* the step catalog (`STEPS`), the per-stage deriver (`getStageSteps`),
  the multi-stage orchestrator (`getQuestionSteps`) and the `update`
  cascade, translated from the source;
* theorems settling the claims about this code.
-/

set_option autoImplicit false

/-- Modelled from the spec: the database/feature-capability lookup collaborator
(`database.hasFeature("join")`, `database.supportsExpressions()`,
`database.hasFeature("nested-queries")`), which is consumed only through these
three capability predicates. -/
structure Database where
  featJoin : Bool
  featExpressions : Bool
  featNestedQueries : Bool
deriving DecidableEq, Repr

/-- Modelled from the spec: a join clause as seen through its interface
(`isValid()`, `hasGaps()`, `clean()`).  The auto-repair performed by
`join.clean()` is external, so the join carries, as data, whether its repaired
form is valid (`cleanIsValid`). -/
structure Join where
  isValid : Bool
  hasGaps : Bool
  cleanIsValid : Bool
deriving DecidableEq, Repr

/-- Modelled from the spec: `join.clean()` returns the auto-repaired join; the
repair is idempotent, so the repaired join's own repaired form is itself. -/
def Join.clean (j : Join) : Join :=
  ⟨j.cleanIsValid, j.hasGaps, j.cleanIsValid⟩

/-- Modelled from the spec: the clause content of one query stage.  Each
non-join clause is abstracted to its validity bit, which is all the deriver
consumes (`hasX` = non-emptiness, `cleanX` = drop invalid clauses, `clearX` =
drop all clauses). -/
structure Stage where
  joins : List Join
  expressions : List Bool
  filters : List Bool
  aggregations : List Bool
  breakouts : List Bool
  sorts : List Bool
  limit : Option Nat
deriving DecidableEq, Repr

/-- The stage with no clauses at all. -/
def Stage.empty : Stage :=
  ⟨[], [], [], [], [], [], none⟩

/-- Whether a stage has any clause of its own. -/
def Stage.hasAnyClauses (s : Stage) : Bool :=
  !s.joins.isEmpty || !s.expressions.isEmpty || !s.filters.isEmpty ||
    !s.aggregations.isEmpty || !s.breakouts.isEmpty || !s.sorts.isEmpty ||
    s.limit.isSome

/-- Modelled from the spec: a `StructuredQuery` stage view.  `stages` is the
chain of stages from this stage outermost-first down to the root (so the head
is this stage's own clauses and the last element is the root stage);
`hasSourceTable` records whether the root stage has a concrete data source. -/
structure Query where
  database : Option Database
  hasSourceTable : Bool
  stages : List Stage
deriving DecidableEq, Repr

/-- The clauses of the stage this query view is anchored at. -/
def Query.currentStage (q : Query) : Stage :=
  q.stages.headD Stage.empty

/-- Replace the clauses of the anchored stage. -/
def Query.mapCurrentStage (f : Stage → Stage) (q : Query) : Query :=
  { q with stages := match q.stages with
      | [] => []
      | st :: rest => f st :: rest }

/-- Modelled from the spec: `query.sourceQuery()` — the previous stage's view,
when this stage is nested. -/
def Query.sourceQuery (q : Query) : Option Query :=
  match q.stages with
  | _ :: r :: rs => some { q with stages := r :: rs }
  | _ => none

/-- Modelled from the spec: `query.hasData()` — the stage reads from a source
table or from a source query. -/
def Query.hasData (q : Query) : Bool :=
  q.hasSourceTable || (q.sourceQuery).isSome

def Query.joins (q : Query) : List Join :=
  q.currentStage.joins

/-- Modelled from the spec: `query.removeJoin(index)`; out-of-range indices
leave the query unchanged. -/
def Query.removeJoin (q : Query) (i : Nat) : Query :=
  q.mapCurrentStage (fun s => { s with joins := s.joins.eraseIdx i })

/-- Modelled from the spec: `query.updateJoin(index, join)`; out-of-range
indices leave the query unchanged. -/
def Query.updateJoin (q : Query) (i : Nat) (j : Join) : Query :=
  q.mapCurrentStage (fun s => { s with joins := s.joins.set i j })

def Query.hasExpressions (q : Query) : Bool := !q.currentStage.expressions.isEmpty
def Query.hasFilters (q : Query) : Bool := !q.currentStage.filters.isEmpty
def Query.hasAggregations (q : Query) : Bool := !q.currentStage.aggregations.isEmpty
def Query.hasBreakouts (q : Query) : Bool := !q.currentStage.breakouts.isEmpty
def Query.hasSorts (q : Query) : Bool := !q.currentStage.sorts.isEmpty

def Query.clearExpressions (q : Query) : Query :=
  q.mapCurrentStage (fun s => { s with expressions := [] })
def Query.clearFilters (q : Query) : Query :=
  q.mapCurrentStage (fun s => { s with filters := [] })
def Query.clearAggregations (q : Query) : Query :=
  q.mapCurrentStage (fun s => { s with aggregations := [] })
def Query.clearBreakouts (q : Query) : Query :=
  q.mapCurrentStage (fun s => { s with breakouts := [] })
def Query.clearSort (q : Query) : Query :=
  q.mapCurrentStage (fun s => { s with sorts := [] })

/-- Modelled from the spec: `cleanExpressions` drops the invalid clauses
("drop-if-unfixable, otherwise minimal correction"). -/
def Query.cleanExpressions (q : Query) : Query :=
  q.mapCurrentStage (fun s => { s with expressions := s.expressions.filter id })
/-- Modelled from the spec: `cleanFilters` drops the invalid clauses. -/
def Query.cleanFilters (q : Query) : Query :=
  q.mapCurrentStage (fun s => { s with filters := s.filters.filter id })
/-- Modelled from the spec: `cleanAggregations` drops the invalid clauses. -/
def Query.cleanAggregations (q : Query) : Query :=
  q.mapCurrentStage (fun s => { s with aggregations := s.aggregations.filter id })
/-- Modelled from the spec: `cleanBreakouts` drops the invalid clauses. -/
def Query.cleanBreakouts (q : Query) : Query :=
  q.mapCurrentStage (fun s => { s with breakouts := s.breakouts.filter id })
/-- Modelled from the spec: `cleanSorts` drops the invalid clauses. -/
def Query.cleanSorts (q : Query) : Query :=
  q.mapCurrentStage (fun s => { s with sorts := s.sorts.filter id })

def Query.hasAnyClauses (q : Query) : Bool :=
  q.currentStage.hasAnyClauses

/-- Modelled from the spec: `cleanNesting` strips empty source queries — every
stage other than the root that has no clauses of its own is removed.  The
stage list is outermost-first, so the root is the last element and is kept. -/
def cleanNestingStages : List Stage → List Stage
  | [] => []
  | [s] => [s]
  | s :: rest =>
    if s.hasAnyClauses then s :: cleanNestingStages rest else cleanNestingStages rest

def Query.cleanNesting (q : Query) : Query :=
  { q with stages := cleanNestingStages q.stages }

/-- Modelled from the spec: `query.nest()` adds one empty outer stage. -/
def Query.nest (q : Query) : Query :=
  { q with stages := Stage.empty :: q.stages }

/-- Modelled from the spec: `self.setSourceQuery(src)` keeps this stage's own
clauses and re-points its source chain at `src`. -/
def Query.setSourceQuery (self src : Query) : Query :=
  { database := self.database
    hasSourceTable := src.hasSourceTable
    stages := self.currentStage :: src.stages }

/-- Modelled from the spec: `query.queries()` — the per-stage views of a
multi-stage query, in ascending (root-first) stage order. -/
def Query.stageViews (q : Query) : List Query :=
  (List.range q.stages.length).map
    (fun k => { q with stages := q.stages.drop (q.stages.length - 1 - k) })

/-- The stage view addressed by an MLv2 stage index: `-1` means the last
stage, any other index is the literal (root-first) stage index; out-of-range
references resolve to `none`. -/
def Query.stageViewAt (q : Query) (stageIdx : Int) : Option Query :=
  let n := q.stages.length
  let k : Int := if stageIdx = -1 then (n : Int) - 1 else stageIdx
  if k < 0 || (n : Int) ≤ k then none
  else some { q with stages := q.stages.drop (n - 1 - k.toNat) }

/-- Modelled from the spec: `Lib.hasLimit(query, stageIndex)` — whether the
addressed stage carries a limit clause. -/
def Query.hasLimit (q : Query) (stageIdx : Int) : Bool :=
  match q.stageViewAt stageIdx with
  | some v => v.currentStage.limit.isSome
  | none => false

def listModifyAt {α : Type} : List α → Nat → (α → α) → List α
  | [], _, _ => []
  | a :: l, 0, f => f a :: l
  | a :: l, n + 1, f => a :: listModifyAt l n f

/-- Modelled from the spec: `Lib.limit(query, stageIndex, null)` — the query
with the addressed stage's limit removed.  The spec states the deriver never
constructs an out-of-range stage reference, so those are modelled as no-ops. -/
def Query.limitToNull (q : Query) (stageIdx : Int) : Query :=
  let n := q.stages.length
  let k : Int := if stageIdx = -1 then (n : Int) - 1 else stageIdx
  if k < 0 || (n : Int) ≤ k then q
  else { q with stages := listModifyAt q.stages (n - 1 - k.toNat) (fun s => { s with limit := none }) }

/-! ### The step catalog (`STEPS`, steps.ts lines 26–131) -/

/-- The step types of the catalog, in catalog order. -/
inductive StepType where
  | data
  | join
  | expression
  | filter
  | summarize
  | sort
  | limit
deriving DecidableEq, Repr

def StepType.str : StepType → String
  | .data => "data"
  | .join => "join"
  | .expression => "expression"
  | .filter => "filter"
  | .summarize => "summarize"
  | .sort => "sort"
  | .limit => "limit"

/-- `MLV2_STEPS = ["limit", "sort"]` (steps.ts line 26). -/
def isMLv2Step (t : StepType) : Bool :=
  match t with
  | .limit => true
  | .sort => true
  | _ => false

/-- `getMLv2StageIndex` (steps.ts lines 28–38): the last stage is addressed by
the sentinel `-1` for the MLv2 steps (`sort`, `limit`). -/
def getMLv2StageIndex (index : Nat) (stepType : StepType) (isLastStage : Bool) : Int :=
  if isMLv2Step stepType && isLastStage then -1 else (index : Int)

/-- The catalog's `valid` predicates (steps.ts lines 40–131). -/
def stepValid (t : StepType) (q : Query) (_itemIndex : Option Nat) (_top : Query)
    (_stageIndex : Int) : Bool :=
  match t with
  | .data => !(q.sourceQuery).isSome
  | .join =>
    q.hasData && (match q.database with
      | some db => db.featJoin
      | none => false)
  | .expression =>
    q.hasData && (match q.database with
      | some db => db.featExpressions
      | none => false)
  | .filter => q.hasData
  | .summarize => q.hasData
  | .sort =>
    q.hasData && (!q.hasAggregations || q.hasBreakouts) &&
      (!(q.sourceQuery).isSome || q.hasAnyClauses)
  | .limit =>
    q.hasData && (!q.hasAggregations || q.hasBreakouts) &&
      (!(q.sourceQuery).isSome || q.hasAnyClauses)

/-- The catalog's `active` predicates (steps.ts lines 40–131); `limit` is the
one MLv2-backed predicate, reading the top-level query at the step's MLv2
stage index. -/
def stepActive (t : StepType) (q : Query) (itemIndex : Option Nat) (top : Query)
    (stageIndex : Int) : Bool :=
  match t with
  | .data => true
  | .join =>
    match itemIndex with
    | some i => decide (i < q.joins.length)
    | none => false
  | .expression => q.hasExpressions
  | .filter => q.hasFilters
  | .summarize => q.hasAggregations || q.hasBreakouts
  | .sort => q.hasSorts
  | .limit => top.hasLimit stageIndex

/-- The catalog's `clean` operations (steps.ts lines 40–131).  Only `join`
implements its own repair-or-delete logic (lines 58–68); `data` and `limit`
return the query unchanged, the rest delegate to the query's clause
cleaning. -/
def stepClean (t : StepType) (itemIndex : Option Nat) (q : Query) : Query :=
  match t with
  | .data => q
  | .join =>
    match itemIndex with
    | none => q
    | some i =>
      match q.joins[i]? with
      | none => q
      | some j =>
        if j.isValid || j.hasGaps then q
        else if (Join.clean j).isValid then q.updateJoin i (Join.clean j)
        else q.removeJoin i
  | .expression => q.cleanExpressions
  | .filter => q.cleanFilters
  | .summarize => q.cleanBreakouts.cleanAggregations
  | .sort => q.cleanSorts
  | .limit => q

/-- Whether the catalog entry defines a `revert` (`data` has `revert: null`). -/
def stepHasRevert (t : StepType) : Bool :=
  match t with
  | .data => false
  | _ => true

/-- The `limit` entry's `revert` (steps.ts lines 119–128): remove the limit
from the MLv2 top-level query at the step's stage index, re-import the result
into the accumulated legacy query (which replaces that query's dataset
entirely), and take the stage view at the (sentinel-resolved) stage index;
an out-of-range index yields no query, like `stagedQueries[i]` reading past
the end. -/
def limitRevert (top : Query) (stageIndex : Int) : Option Query :=
  let reverted := top.limitToNull stageIndex
  let stagedQueries := reverted.stageViews
  let safeStageIndex : Int :=
    if stageIndex = -1 then (stagedQueries.length : Int) - 1 else stageIndex
  if safeStageIndex < 0 then none else stagedQueries[safeStageIndex.toNat]?

/-- The catalog's `revert` operations (steps.ts lines 40–131), applied to the
accumulated preview query `q`. -/
def stepRevert (t : StepType) (itemIndex : Option Nat) (top : Query)
    (stageIndex : Int) (q : Query) : Option Query :=
  match t with
  | .data => some q
  | .join =>
    match itemIndex with
    | some i => some (q.removeJoin i)
    | none => some q
  | .expression => some q.clearExpressions
  | .filter => some q.clearFilters
  | .summarize =>
    some (if q.hasAggregations || q.hasBreakouts
      then (q.clearBreakouts).clearAggregations
      else q)
  | .sort => some q.clearSort
  | .limit => limitRevert top stageIndex

/-! ### The per-stage deriver (`getStageSteps`, steps.ts lines 185–314) -/

/-- Whether `itemIndex != null && itemIndex > 0` (steps.ts lines 193, 200). -/
def isValidItemIndex (itemIndex : Option Nat) : Bool :=
  match itemIndex with
  | some i => decide (0 < i)
  | none => false

/-- `getId` (steps.ts lines 192–197): `{stageIndex}:{type}` with a
`:{itemIndex}` suffix only for item indices greater than zero. -/
def getId (stageIndex : Nat) (t : StepType) (itemIndex : Option Nat) : String :=
  if isValidItemIndex itemIndex then
    toString stageIndex ++ ":" ++ t.str ++ ":" ++ toString (itemIndex.getD 0)
  else
    toString stageIndex ++ ":" ++ t.str

/-- The item index printed into the test id (steps.ts line 201): item index
zero is collapsed to `0` exactly like a null item index. -/
def testIdItemIndex (itemIndex : Option Nat) : Nat :=
  if isValidItemIndex itemIndex then itemIndex.getD 0 else 0

/-- `getTestId` (steps.ts lines 199–203): `step-{type}-{stageIndex}-{item}`. -/
def getTestId (stageIndex : Nat) (t : StepType) (itemIndex : Option Nat) : String :=
  "step-" ++ t.str ++ "-" ++ toString stageIndex ++ "-" ++ toString (testIdItemIndex itemIndex)

/-- One derived step instance (steps.ts lines 208–259).  The `revert`,
`clean` and `update` closures of the source are modelled by the standalone
functions `applyRevert`, `stepClean` and `updateWalk`, applied to this
record's `type`, `itemIndex` and `stageIndex`; `next`/`previous` are the
positional neighbours in the derived list. -/
structure StepRec where
  id : String
  type : StepType
  stageIndex : Int
  itemIndex : Option Nat
  valid : Bool
  active : Bool
  visible : Bool
  testID : String
  previewQuery : Option Query
  actions : List (StepType × String)
deriving DecidableEq, Repr

/-- `getStep` (steps.ts lines 205–261): one step instance, with `valid`,
`active` and `visible = valid && (active || openSteps[id])` computed
eagerly; `previewQuery` and `actions` are filled in later by the
right-to-left pass. -/
def getStep (top q : Query) (stageIdx : Nat) (isLast : Bool)
    (openSteps : String → Bool) (t : StepType) (itemIndex : Option Nat) : StepRec :=
  let id := getId stageIdx t itemIndex
  let stageIndex := getMLv2StageIndex stageIdx t isLast
  { id := id
    type := t
    stageIndex := stageIndex
    itemIndex := itemIndex
    valid := stepValid t q itemIndex top stageIndex
    active := stepActive t q itemIndex top stageIndex
    visible :=
      stepValid t q itemIndex top stageIndex &&
        (stepActive t q itemIndex top stageIndex || openSteps id)
    testID := getTestId stageIdx t itemIndex
    previewQuery := none
    actions := [] }

/-- The catalog in order; `join` is the catalog's only repeatable
(`subSteps`) entry. -/
def STEPS : List StepType :=
  [.data, .join, .expression, .filter, .summarize, .sort, .limit]

/-- The raw step instances of one stage (steps.ts lines 264–274): one
instance per catalog entry, the repeatable `join` entry expanded to one
instance per existing join plus the trailing "add" placeholder. -/
def rawSteps (top q : Query) (stageIdx : Nat) (isLast : Bool)
    (openSteps : String → Bool) : List StepRec :=
  (STEPS.map (fun t =>
    match t with
    | .join =>
      (List.range (q.joins.length + 1)).map
        (fun k => getStep top q stageIdx isLast openSteps .join (some k))
    | _ => [getStep top q stageIdx isLast openSteps t none])).flatten

/-- One iteration's revert of the preview query (steps.ts lines 302–310):
applied only when the step defines a `revert` and a preview query is still
available. -/
def applyRevert (top : Query) (s : StepRec) (pq : Option Query) : Option Query :=
  if stepHasRevert s.type then
    match pq with
    | none => none
    | some q => stepRevert s.type s.itemIndex top s.stageIndex q
  else pq

/-- The right-to-left pass of `getStageSteps` (steps.ts lines 276–311),
threading `(kept steps, pending actions, preview query)` from the end of the
raw list towards its start. -/
def processSteps (top : Query) (pq : Option Query) :
    List StepRec → List StepRec × List (StepType × String) × Option Query
  | [] => ([], [], pq)
  | s :: rest =>
    let r := processSteps top pq rest
    let pqAfter := r.2.2
    if s.visible then
      ({ s with
          previewQuery := if s.active then pqAfter else none
          actions := r.2.1 } :: r.1,
        [],
        applyRevert top s pqAfter)
    else
      (r.1,
        (if s.valid then [(s.type, s.id)] else []) ++ r.2.1,
        applyRevert top s pqAfter)

/-- `getStageSteps` (steps.ts lines 185–314): the visible step instances of
one stage plus the actions left unattached at the stage's left edge. -/
def getStageSteps (top stageQuery : Query) (stageIdx : Nat) (isLast : Bool)
    (openSteps : String → Bool) : List StepRec × List (StepType × String) :=
  let raw := rawSteps top stageQuery stageIdx isLast openSteps
  let r := processSteps top (some stageQuery) raw
  (r.1, r.2.1)

/-- Splicing a stage's leading actions onto the previous stage's final step
(steps.ts lines 166–168). -/
def appendActionsToLast : List StepRec → List (StepType × String) → List StepRec
  | [], _ => []
  | [s], acts => [{ s with actions := s.actions ++ acts }]
  | s :: rest, acts => s :: appendActionsToLast rest acts

/-- `getQuestionSteps` (steps.ts lines 136–180): normalize the query
(`cleanNesting`, then `nest` when the database supports nesting and the top
stage has breakouts), derive each stage's steps, and splice each stage's
leading actions onto the previous stage's last step.  Non-structured
questions yield no steps. -/
def getQuestionSteps (isStructured : Bool) (q : Query) (openSteps : String → Bool) :
    List StepRec :=
  if isStructured then
    let topLevelQuery := q
    let allowsNesting :=
      match q.database with
      | some db => db.featNestedQueries
      | none => false
    let q1 := q.cleanNesting
    let q2 := if allowsNesting && q1.hasBreakouts then q1.nest else q1
    let stagedQueries := q2.stageViews
    let n := stagedQueries.length
    stagedQueries.enum.foldl
      (fun allSteps p =>
        let r := getStageSteps topLevelQuery p.2 p.1 (p.1 == n - 1) openSteps
        let allSteps := if allSteps.isEmpty then allSteps else appendActionsToLast allSteps r.2
        allSteps ++ r.1)
      []
  else []

/-! ### The `update` cascade (steps.ts lines 231–253) -/

/-- One entry of the `next`-chain that a step's `update` walks: the
subsequent step's type, item index, its MLv2 stage index together with its
predecessor's (for the stage-boundary test
`current.previous.stageIndex < current.stageIndex`), and its captured stage
view (`current.query`). -/
structure ChainStep where
  type : StepType
  itemIndex : Option Nat
  prevStageIndex : Int
  stageIndex : Int
  stepQuery : Query
deriving DecidableEq, Repr

/-- The forward walk performed by a step's `update` (steps.ts lines 231–253)
on the new base query (`stageQuery.setDatasetQuery(datasetQuery)`): for each
subsequent step in chain order, re-point its captured stage view's source at
the accumulated query when crossing a stage boundary, apply that step's
`clean`, and finish with `cleanNesting`. -/
def updateWalk (chain : List ChainStep) (base : Query) : Query :=
  (chain.foldl
    (fun acc e =>
      let acc' :=
        if e.prevStageIndex < e.stageIndex then e.stepQuery.setSourceQuery acc else acc
      stepClean e.type e.itemIndex acc')
    base).cleanNesting

/-- The `join` entry's clean at the joins-list level (steps.ts lines 58–68). -/
def joinsCleanList (js : List Join) (i : Nat) : List Join :=
  match js[i]? with
  | none => js
  | some j =>
    if j.isValid || j.hasGaps then js
    else if (Join.clean j).isValid then js.set i (Join.clean j)
    else js.eraseIdx i

/-- The catalog cleans at the level of a single stage's clauses. -/
def cleanStage (t : StepType) (itemIndex : Option Nat) (s : Stage) : Stage :=
  match t with
  | .data => s
  | .limit => s
  | .join =>
    match itemIndex with
    | none => s
    | some i => { s with joins := joinsCleanList s.joins i }
  | .expression => { s with expressions := s.expressions.filter id }
  | .filter => { s with filters := s.filters.filter id }
  | .summarize =>
    { s with breakouts := s.breakouts.filter id, aggregations := s.aggregations.filter id }
  | .sort => { s with sorts := s.sorts.filter id }

/-- The update cascade's cleans restricted to one stage. -/
def walkStage (chain : List (StepType × Option Nat)) (s : Stage) : Stage :=
  chain.foldl (fun st e => cleanStage e.1 e.2 st) s

/-- The `(type, itemIndex)` projection of a chain. -/
def chainTypes (chain : List ChainStep) : List (StepType × Option Nat) :=
  chain.map (fun e => (e.type, e.itemIndex))

/-- Every join of the list is valid, mid-edit (has gaps), or auto-repairable:
exactly the joins on which the `join` entry's clean never deletes. -/
abbrev joinsRepairable (js : List Join) : Prop :=
  ∀ j ∈ js, j.isValid = true ∨ j.hasGaps = true ∨ (Join.clean j).isValid = true

/-! ### Claim-side definitions -/

/-- The revert chain of steps.ts lines 302–310 folded over a step list: the
reverts of the steps applied right-to-left (last step's revert first),
skipping steps without a `revert` and stopping at a missing preview query. -/
def revertChain (top : Query) (l : List StepRec) (pq : Option Query) : Option Query :=
  l.foldr (fun s acc => applyRevert top s acc) pq

/-- Claim-side recomputation of the per-step previews: for every visible
instance of the raw list, pair its `active` flag with the stage query after
applying the revert of every later raw step right-to-left — or `none` when
the instance is inactive. -/
def previewSpec (top : Query) : List StepRec → Option Query → List (Bool × Option Query)
  | [], _ => []
  | s :: rest, pq =>
    (if s.visible then
      [(s.active, if s.active then revertChain top rest pq else none)]
    else []) ++ previewSpec top rest pq

/-- The stage's query as it stood with only the data step: same source chain,
all of the stage's own clauses removed. -/
def dataOnly (q : Query) : Query :=
  { q with stages := match q.stages with
      | [] => []
      | _ :: rest => Stage.empty :: rest }

/-- Claim-side formula for `sort`/`limit` validity: the stage has data, has
no aggregations or has at least one breakout, and has no source query or has
at least one clause of its own. -/
def sortLimitValidSpec (q : Query) : Bool :=
  q.hasData && (!q.hasAggregations || q.hasBreakouts) &&
    (!(q.sourceQuery).isSome || q.hasAnyClauses)

/-- A single-stage structured query with a data source and no clauses. -/
def mkC6Query (db : Database) : Query :=
  ⟨some db, true, [Stage.empty]⟩

/-- The hidden-but-valid actions the lone data step of an empty single-stage
query accumulates: one per valid inactive catalog entry, in catalog order. -/
def c6ExpectedActions (db : Database) : List (StepType × String) :=
  (if db.featJoin then [(.join, "0:join")] else []) ++
    (if db.featExpressions then [(.expression, "0:expression")] else []) ++
    [(.filter, "0:filter"), (.summarize, "0:summarize"),
      (.sort, "0:sort"), (.limit, "0:limit")]

/-- The lone step derived for an empty single-stage query. -/
def c6ExpectedStep (db : Database) : StepRec :=
  { id := "0:data"
    type := .data
    stageIndex := 0
    itemIndex := none
    valid := true
    active := true
    visible := true
    testID := "step-data-0-0"
    previewQuery := some (mkC6Query db)
    actions := c6ExpectedActions db }

/-! ### Helper lemmas -/

/-- The raw step list, written as the explicit catalog-order concatenation. -/
theorem rawSteps_eq (top q : Query) (stageIdx : Nat) (isLast : Bool)
    (opn : String → Bool) :
    rawSteps top q stageIdx isLast opn =
      [getStep top q stageIdx isLast opn .data none] ++
        (List.range (q.joins.length + 1)).map
          (fun k => getStep top q stageIdx isLast opn .join (some k)) ++
        [getStep top q stageIdx isLast opn .expression none,
          getStep top q stageIdx isLast opn .filter none,
          getStep top q stageIdx isLast opn .summarize none,
          getStep top q stageIdx isLast opn .sort none,
          getStep top q stageIdx isLast opn .limit none] := by
  simp [rawSteps, STEPS]

/-- Claim C2: for every step instance produced by a derivation pass, the
`visible` flag equals `valid && (active || open id)`; in particular a visible
instance is never invalid. -/
theorem claim_C2 (top q : Query) (stageIdx : Nat) (isLast : Bool)
    (openSteps : String → Bool) (t : StepType) (itemIndex : Option Nat) :
    (getStep top q stageIdx isLast openSteps t itemIndex).visible =
      ((getStep top q stageIdx isLast openSteps t itemIndex).valid &&
        ((getStep top q stageIdx isLast openSteps t itemIndex).active ||
          openSteps (getStep top q stageIdx isLast openSteps t itemIndex).id)) ∧
    ((getStep top q stageIdx isLast openSteps t itemIndex).visible &&
      !(getStep top q stageIdx isLast openSteps t itemIndex).valid) = false := by
  refine ⟨rfl, ?_⟩
  simp only [getStep]
  cases stepValid t q itemIndex top (getMLv2StageIndex stageIdx t isLast) <;> simp

/-- Claim C5: every derived instance of `sort`/`limit` carries the sentinel
stage index `-1` exactly when the stage is the last one; every other instance
always carries the literal stage index. -/
theorem claim_C5 (top q : Query) (stageIdx : Nat) (isLast : Bool)
    (opn : String → Bool) :
    (rawSteps top q stageIdx isLast opn).all
      (fun s =>
        s.stageIndex ==
          (if (s.type == StepType.sort || s.type == StepType.limit) && isLast
            then (-1 : Int) else (stageIdx : Int))) = true := by
  rw [rawSteps_eq]
  simp [List.all_append, List.all_map, getStep, getMLv2StageIndex, isMLv2Step]

/-- Claim C9: a repeatable step instance with item index `0` gets the same
display id and test id as a singleton (null item index) instance of the same
type — the test id's printed item index is `0` — while the instance's
internal `itemIndex` field remains `0`; item indices above `0` get the
`:{itemIndex}` suffix. -/
theorem claim_C9 (stageIdx : Nat) (t : StepType) :
    getId stageIdx t (some 0) = getId stageIdx t none ∧
    getTestId stageIdx t (some 0) = getTestId stageIdx t none ∧
    testIdItemIndex (some 0) = 0 ∧
    (∀ (top q : Query) (isLast : Bool) (opn : String → Bool),
      (getStep top q stageIdx isLast opn t (some 0)).itemIndex = some 0) ∧
    (∀ k : Nat,
      getId stageIdx t (some (k + 1)) =
        getId stageIdx t none ++ ":" ++ toString (k + 1)) := by
  refine ⟨?_, ?_, rfl, fun _ _ _ _ => rfl, fun k => ?_⟩
  · simp [getId, isValidItemIndex]
  · simp [getTestId, testIdItemIndex, isValidItemIndex]
  · simp [getId, isValidItemIndex]

/-- Claim C10: `sort` and `limit` are valid exactly when the stage has data,
has no aggregations or has a breakout, and has no source query or has at
least one clause of its own; in particular both are invalid on a freshly
nested stage with no clauses of its own. -/
theorem claim_C10 (q top : Query) (itemIndex : Option Nat) (stageIndex : Int) :
    stepValid .sort q itemIndex top stageIndex = sortLimitValidSpec q ∧
    stepValid .limit q itemIndex top stageIndex = sortLimitValidSpec q ∧
    (∀ (db : Option Database) (tbl : Bool) (s : Stage) (rest : List Stage),
      stepValid .sort ⟨db, tbl, Stage.empty :: s :: rest⟩ itemIndex top stageIndex = false ∧
      stepValid .limit ⟨db, tbl, Stage.empty :: s :: rest⟩ itemIndex top stageIndex = false) := by
  refine ⟨rfl, rfl, fun db tbl s rest => ?_⟩
  constructor <;>
    simp [stepValid, Query.hasData, Query.sourceQuery, Query.hasAnyClauses,
      Query.currentStage, Stage.hasAnyClauses, Stage.empty, Query.hasAggregations,
      Query.hasBreakouts]

/-- The preview query threaded out of the right-to-left pass is the fold of
the reverts of the processed steps. -/
theorem processSteps_preview (top : Query) (pq : Option Query) (l : List StepRec) :
    (processSteps top pq l).2.2 = revertChain top l pq := by
  induction l with
  | nil => rfl
  | cons s rest ih =>
    cases hv : s.visible <;> simp [processSteps, hv, revertChain, ih, List.foldr]

/-- The kept steps' `(active, previewQuery)` pairs are the claim-side
recomputation `previewSpec`. -/
theorem processSteps_map_preview (top : Query) (pq : Option Query) (l : List StepRec) :
    (processSteps top pq l).1.map (fun s => (s.active, s.previewQuery)) =
      previewSpec top l pq := by
  induction l with
  | nil => rfl
  | cons s rest ih =>
    cases hv : s.visible <;>
      simp [processSteps, hv, previewSpec, ih, processSteps_preview, revertChain]

/-- Claim C3: for every visible step instance kept by the deriver, the
preview query is `none` when the instance is inactive, and otherwise equals
the stage query with the revert of every later raw step applied in
right-to-left order. -/
theorem claim_C3 (top stageQuery : Query) (stageIdx : Nat) (isLast : Bool)
    (opn : String → Bool) :
    ((getStageSteps top stageQuery stageIdx isLast opn).1).map
        (fun s => (s.active, s.previewQuery)) =
      previewSpec top (rawSteps top stageQuery stageIdx isLast opn) (some stageQuery) := by
  simp [getStageSteps, processSteps_map_preview]

/-- Claim C7: a stage query holding exactly two joins (on a database that
supports joins) yields two `join` instances with item indices 0 and 1, both
active, plus one placeholder instance with item index 2 that is inactive. -/
theorem claim_C7 (top q : Query) (stageIdx : Nat) (isLast : Bool)
    (opn : String → Bool)
    (h2 : q.joins.length = 2)
    (_hdb : (match q.database with | some db => db.featJoin | none => false) = true)
    (_hd : q.hasData = true) :
    ((rawSteps top q stageIdx isLast opn).filter
        (fun s => match s.type with | .join => true | _ => false)).map
      (fun s => (s.itemIndex, s.active)) =
      [(some 0, true), (some 1, true), (some 2, false)] := by
  rw [rawSteps_eq, h2]
  simp [List.filter_append, getStep, List.range_succ, stepActive, h2]

/-- Witness for C7 at a concrete two-join query. -/
theorem claim_C7_witness :
    ((⟨some ⟨true, true, true⟩, true,
        [{ Stage.empty with joins := [⟨true, false, true⟩, ⟨false, true, false⟩] }]⟩ : Query).joins.length = 2) ∧
    ((rawSteps
        (⟨some ⟨true, true, true⟩, true,
          [{ Stage.empty with joins := [⟨true, false, true⟩, ⟨false, true, false⟩] }]⟩ : Query)
        (⟨some ⟨true, true, true⟩, true,
          [{ Stage.empty with joins := [⟨true, false, true⟩, ⟨false, true, false⟩] }]⟩ : Query)
        0 true (fun _ => false)).filter
        (fun s => match s.type with | .join => true | _ => false)).map
      (fun s => (s.itemIndex, s.active)) =
      [(some 0, true), (some 1, true), (some 2, false)] :=
  ⟨by decide,
    claim_C7 _ _ 0 true (fun _ => false) (by decide) (by decide) (by decide)⟩

/-- Counterexample to claim C6 as stated: on a single-stage structured query
with data and no clauses (and an empty force-open set) the derivation does
return exactly one visible step of type `data`, but that step carries one
action per hidden-but-valid step type — not zero actions. -/
theorem claim_C6_counterexample :
    ((getQuestionSteps true (mkC6Query ⟨false, false, false⟩) (fun _ => false)).map
        (fun s => s.type) = [StepType.data]) ∧
    ((getQuestionSteps true (mkC6Query ⟨false, false, false⟩) (fun _ => false)).map
        (fun s => s.actions) ≠ [[]]) := by
  constructor <;> decide

/-- Claim C6, amended: for every database, deriving the steps of a
single-stage structured query with data but no clauses (empty force-open
set) yields exactly the one visible `data` step, whose action list holds one
entry per hidden-but-valid step type in catalog order (join and expression
only when the database supports them) — not zero actions. -/
theorem claim_C6_amended (db : Database) :
    getQuestionSteps true (mkC6Query db) (fun _ => false) = [c6ExpectedStep db] := by
  obtain ⟨a, b, c⟩ := db
  cases a <;> cases b <;> cases c <;> decide

/-- A clean that rewrites only non-join clause fields leaves the stage's
joins untouched. -/
theorem mapCurrentStage_joins (f : Stage → Stage) (q : Query)
    (hf : ∀ s, (f s).joins = s.joins) :
    (Query.mapCurrentStage f q).currentStage.joins = q.currentStage.joins := by
  cases hq : q.stages <;> simp [Query.mapCurrentStage, Query.currentStage, hq, hf]

/-- Counterexample to claim C8 as stated: the `filter` entry's clean also
deletes a clause — cleaning a stage holding one invalid filter drops that
filter — so `join` is not the only catalog entry whose clean can delete a
clause. -/
theorem claim_C8_counterexample :
    (Query.currentStage
        (stepClean .filter none
          ⟨none, true, [{ Stage.empty with filters := [false] }]⟩)).filters.length <
      (Query.currentStage
        (⟨none, true, [{ Stage.empty with filters := [false] }]⟩ : Query)).filters.length := by
  decide

/-- Claim C8, amended: the `join` entry's clean removes a join that is
invalid, not mid-edit, and whose auto-repaired form is still invalid; and
`join` is the only catalog entry whose own clean logic can delete a whole
clause of its kind — every other entry's clean leaves the stage's joins
untouched (though the delegated clause cleaning may drop invalid clauses of
its own kind). -/
theorem claim_C8_amended :
    (∀ (q : Query) (i : Nat) (j : Join),
      q.joins[i]? = some j → j.isValid = false → j.hasGaps = false →
      (Join.clean j).isValid = false →
      stepClean .join (some i) q = q.removeJoin i) ∧
    (∀ (t : StepType) (itemIndex : Option Nat) (q : Query), t ≠ .join →
      (stepClean t itemIndex q).currentStage.joins = q.currentStage.joins) := by
  constructor
  · intro q i j hj hv hg hc
    simp [stepClean, hj, hv, hg, hc]
  · intro t idx q ht
    cases t with
    | data => rfl
    | limit => rfl
    | join => exact absurd rfl ht
    | expression => exact mapCurrentStage_joins _ q (fun s => rfl)
    | filter => exact mapCurrentStage_joins _ q (fun s => rfl)
    | sort => exact mapCurrentStage_joins _ q (fun s => rfl)
    | summarize =>
      have h1 := mapCurrentStage_joins
        (fun s => { s with aggregations := s.aggregations.filter id })
        q.cleanBreakouts (fun s => rfl)
      have h2 := mapCurrentStage_joins
        (fun s => { s with breakouts := s.breakouts.filter id }) q (fun s => rfl)
      simpa [stepClean, Query.cleanAggregations, Query.cleanBreakouts] using h1.trans h2

/-- Witness for the amended C8 at a concrete unrepairable join. -/
theorem claim_C8_witness :
    ((⟨none, true, [{ Stage.empty with joins := [⟨false, false, false⟩] }]⟩ : Query).joins[0]? =
        some ⟨false, false, false⟩) ∧
    stepClean .join (some 0)
        ⟨none, true, [{ Stage.empty with joins := [⟨false, false, false⟩] }]⟩ =
      Query.removeJoin
        ⟨none, true, [{ Stage.empty with joins := [⟨false, false, false⟩] }]⟩ 0 :=
  ⟨by decide,
    claim_C8_amended.1 _ 0 ⟨false, false, false⟩ (by decide) rfl rfl (by decide)⟩

/-- Counterexample to claim C1 as stated: a forward walk whose chain crosses
a stage boundary re-appends the later stage's captured clauses on every run,
so running the walk on its own output does not reproduce that output.  Here
the chain is the single visible filter step of stage 1 (its predecessor, the
edited step, sits in stage 0), and the walk's second application yields a
three-stage query instead of the two-stage one. -/
theorem claim_C1_counterexample :
    updateWalk
        [⟨.filter, none, 0, 1,
          ⟨none, true, [{ Stage.empty with filters := [true] },
            { Stage.empty with filters := [true] }]⟩⟩]
        (updateWalk
          [⟨.filter, none, 0, 1,
            ⟨none, true, [{ Stage.empty with filters := [true] },
              { Stage.empty with filters := [true] }]⟩⟩]
          ⟨none, true, [{ Stage.empty with filters := [true] }]⟩) ≠
      updateWalk
        [⟨.filter, none, 0, 1,
          ⟨none, true, [{ Stage.empty with filters := [true] },
            { Stage.empty with filters := [true] }]⟩⟩]
        ⟨none, true, [{ Stage.empty with filters := [true] }]⟩ := by
  decide

/-- Unfolding the walk by one chain entry. -/
theorem updateWalk_cons (e : ChainStep) (c : List ChainStep) (base : Query) :
    updateWalk (e :: c) base =
      updateWalk c
        (stepClean e.type e.itemIndex
          (if e.prevStageIndex < e.stageIndex then e.stepQuery.setSourceQuery base
            else base)) := by
  simp [updateWalk, List.foldl]

/-- Composition of current-stage rewrites. -/
theorem mapCurrentStage_comp (f g : Stage → Stage) (q : Query) :
    Query.mapCurrentStage g (Query.mapCurrentStage f q) =
      Query.mapCurrentStage (fun s => g (f s)) q := by
  cases q with
  | mk db tbl stages => cases stages <;> simp [Query.mapCurrentStage]

/-- Every catalog clean rewrites only the current stage's clauses, with
`cleanStage` as the stage-level rewrite. -/
theorem stepClean_mapCurrent (t : StepType) (idx : Option Nat) (q : Query) :
    stepClean t idx q = Query.mapCurrentStage (cleanStage t idx) q := by
  cases q with
  | mk db tbl stages =>
    cases t with
    | data => cases stages <;> simp [stepClean, cleanStage, Query.mapCurrentStage]
    | limit => cases stages <;> simp [stepClean, cleanStage, Query.mapCurrentStage]
    | expression => cases stages <;> simp [stepClean, cleanStage, Query.mapCurrentStage, Query.cleanExpressions]
    | filter => cases stages <;> simp [stepClean, cleanStage, Query.mapCurrentStage, Query.cleanFilters]
    | sort => cases stages <;> simp [stepClean, cleanStage, Query.mapCurrentStage, Query.cleanSorts]
    | summarize =>
      cases stages <;>
        simp [stepClean, cleanStage, Query.mapCurrentStage, Query.cleanAggregations,
          Query.cleanBreakouts]
    | join =>
      cases idx with
      | none => cases stages <;> simp [stepClean, cleanStage, Query.mapCurrentStage]
      | some i =>
        cases stages with
        | nil => simp [stepClean, cleanStage, Query.mapCurrentStage, Query.joins, Query.currentStage, joinsCleanList, Stage.empty]
        | cons st rest =>
          simp only [stepClean, cleanStage, Query.mapCurrentStage, Query.joins,
            Query.currentStage, List.headD_cons, joinsCleanList]
          cases hj : st.joins[i]? with
          | none => simp
          | some j =>
            by_cases h1 : j.isValid || j.hasGaps
            · simp [h1]
            · by_cases h2 : (Join.clean j).isValid
              · simp [h1, h2, Query.updateJoin, Query.mapCurrentStage]
              · simp [h1, h2, Query.removeJoin, Query.mapCurrentStage]

/-- On repairable joins the `join` clean never reaches its deletion branch. -/
theorem joinsCleanList_eq (js : List Join) (i : Nat) (h : joinsRepairable js) :
    joinsCleanList js i =
      (match js[i]? with
        | none => js
        | some j =>
          if j.isValid || j.hasGaps then js else js.set i (Join.clean j)) := by
  unfold joinsCleanList
  cases hj : js[i]? with
  | none => rfl
  | some j =>
    by_cases h1 : j.isValid || j.hasGaps
    · simp [h1]
    · rcases h j (List.getElem?_mem hj) with hv | hg | hc
      · simp [hv] at h1
      · simp [hg] at h1
      · simp [h1, hc]

/-- The `join` clean preserves repairability. -/
theorem joinsCleanList_ok (js : List Join) (i : Nat) (h : joinsRepairable js) :
    joinsRepairable (joinsCleanList js i) := by
  rw [joinsCleanList_eq js i h]
  cases hj : js[i]? with
  | none => exact h
  | some j =>
    by_cases h1 : j.isValid || j.hasGaps
    · simp only [h1, if_true]
      exact h
    · simp only [h1, if_false]
      intro x hx
      rcases List.mem_or_eq_of_mem_set hx with hm | rfl
      · exact h x hm
      · rcases h j (List.getElem?_mem hj) with hv | hg | hc
        · simp [hv] at h1
        · simp [hg] at h1
        · exact Or.inl hc

/-- The `join` clean is idempotent on repairable joins. -/
theorem joinsCleanList_idem (js : List Join) (i : Nat) (h : joinsRepairable js) :
    joinsCleanList (joinsCleanList js i) i = joinsCleanList js i := by
  rw [joinsCleanList_eq js i h,
    joinsCleanList_eq _ i (by rw [← joinsCleanList_eq js i h]; exact joinsCleanList_ok js i h)]
  cases hj : js[i]? with
  | none => simp [hj]
  | some j =>
    by_cases h1 : j.isValid || j.hasGaps
    · simp [hj, h1]
    · have hlt : i < js.length := (List.getElem?_eq_some.mp hj).1
      rcases h j (List.getElem?_mem hj) with hv | hg | hc
      · simp [hv] at h1
      · simp [hg] at h1
      · simp [hj, h1, List.getElem?_set_self hlt, Join.clean, hc]

/-- Two `join` cleans at (possibly different) indices commute on repairable
joins. -/
theorem joinsCleanList_comm (js : List Join) (i k : Nat) (h : joinsRepairable js) :
    joinsCleanList (joinsCleanList js i) k = joinsCleanList (joinsCleanList js k) i := by
  rcases eq_or_ne i k with rfl | hik
  · rfl
  have hoki := joinsCleanList_ok js i h
  have hokk := joinsCleanList_ok js k h
  cases hi : js[i]? with
  | none =>
    have ei : joinsCleanList js i = js := by rw [joinsCleanList_eq js i h, hi]
    cases hk : js[k]? with
    | none =>
      have ek : joinsCleanList js k = js := by rw [joinsCleanList_eq js k h, hk]
      rw [ei, ek]
      exact ei.symm
    | some jk =>
      by_cases hgk : jk.isValid || jk.hasGaps
      · have ek : joinsCleanList js k = js := by
          rw [joinsCleanList_eq js k h, hk]; simp [hgk]
        rw [ei, ek]
        exact ei.symm
      · have ek : joinsCleanList js k = js.set k (Join.clean jk) := by
          rw [joinsCleanList_eq js k h, hk]; simp [hgk]
        calc joinsCleanList (joinsCleanList js i) k = joinsCleanList js k := by rw [ei]
          _ = joinsCleanList (joinsCleanList js k) i := by
              rw [joinsCleanList_eq _ i (ek ▸ hokk)]
              rw [ek, List.getElem?_set_ne (Ne.symm hik), hi]
  | some ji =>
    by_cases hgi : ji.isValid || ji.hasGaps
    · have ei : joinsCleanList js i = js := by
        rw [joinsCleanList_eq js i h, hi]; simp [hgi]
      cases hk : js[k]? with
      | none =>
        have ek : joinsCleanList js k = js := by rw [joinsCleanList_eq js k h, hk]
        rw [ei, ek]
        exact ei.symm
      | some jk =>
        by_cases hgk : jk.isValid || jk.hasGaps
        · have ek : joinsCleanList js k = js := by
            rw [joinsCleanList_eq js k h, hk]; simp [hgk]
          rw [ei, ek]
          exact ei.symm
        · have ek : joinsCleanList js k = js.set k (Join.clean jk) := by
            rw [joinsCleanList_eq js k h, hk]; simp [hgk]
          calc joinsCleanList (joinsCleanList js i) k = joinsCleanList js k := by rw [ei]
            _ = joinsCleanList (joinsCleanList js k) i := by
                rw [joinsCleanList_eq _ i (ek ▸ hokk)]
                rw [ek, List.getElem?_set_ne (Ne.symm hik), hi]
                simp [hgi]
    · have ei : joinsCleanList js i = js.set i (Join.clean ji) := by
        rw [joinsCleanList_eq js i h, hi]; simp [hgi]
      cases hk : js[k]? with
      | none =>
        have ek : joinsCleanList js k = js := by rw [joinsCleanList_eq js k h, hk]
        calc joinsCleanList (joinsCleanList js i) k = joinsCleanList js i := by
              rw [joinsCleanList_eq _ k (ei ▸ hoki)]
              rw [ei, List.getElem?_set_ne hik, hk]
          _ = joinsCleanList (joinsCleanList js k) i := by rw [ek]
      | some jk =>
        by_cases hgk : jk.isValid || jk.hasGaps
        · have ek : joinsCleanList js k = js := by
            rw [joinsCleanList_eq js k h, hk]; simp [hgk]
          calc joinsCleanList (joinsCleanList js i) k = joinsCleanList js i := by
                rw [joinsCleanList_eq _ k (ei ▸ hoki)]
                rw [ei, List.getElem?_set_ne hik, hk]
                simp [hgk]
            _ = joinsCleanList (joinsCleanList js k) i := by rw [ek]
        · have ek : joinsCleanList js k = js.set k (Join.clean jk) := by
            rw [joinsCleanList_eq js k h, hk]; simp [hgk]
          calc joinsCleanList (joinsCleanList js i) k
              = (js.set i (Join.clean ji)).set k (Join.clean jk) := by
                rw [joinsCleanList_eq _ k (ei ▸ hoki)]
                rw [ei, List.getElem?_set_ne hik, hk]
                simp [hgk]
            _ = (js.set k (Join.clean jk)).set i (Join.clean ji) :=
                List.set_comm _ _ _ hik
            _ = joinsCleanList (joinsCleanList js k) i := by
                rw [joinsCleanList_eq _ i (ek ▸ hokk)]
                rw [ek, List.getElem?_set_ne (Ne.symm hik), hi]
                simp [hgi]

/-- Filtering by validity is idempotent. -/
theorem filter_id_idem (l : List Bool) : (l.filter id).filter id = l.filter id := by
  induction l with
  | nil => rfl
  | cons a as ih => cases a <;> simp [List.filter, ih]

/-- Every catalog clean preserves repairability of the stage's joins. -/
theorem cleanStage_ok (t : StepType) (idx : Option Nat) (s : Stage)
    (h : joinsRepairable s.joins) : joinsRepairable (cleanStage t idx s).joins := by
  cases t <;> try exact h
  case join =>
    cases idx with
    | none => exact h
    | some i => exact joinsCleanList_ok s.joins i h

/-- Every catalog clean is idempotent on stages with repairable joins. -/
theorem cleanStage_idem (t : StepType) (idx : Option Nat) (s : Stage)
    (h : joinsRepairable s.joins) :
    cleanStage t idx (cleanStage t idx s) = cleanStage t idx s := by
  cases t with
  | data => rfl
  | limit => rfl
  | expression => simp only [cleanStage, filter_id_idem]
  | filter => simp only [cleanStage, filter_id_idem]
  | sort => simp only [cleanStage, filter_id_idem]
  | summarize => simp only [cleanStage, filter_id_idem]
  | join =>
    cases idx with
    | none => rfl
    | some i => simp [cleanStage, joinsCleanList_idem s.joins i h]

/-- Any two catalog cleans commute on stages with repairable joins. -/
theorem cleanStage_comm (t u : StepType) (it iu : Option Nat) (s : Stage)
    (h : joinsRepairable s.joins) :
    cleanStage t it (cleanStage u iu s) = cleanStage u iu (cleanStage t it s) := by
  cases t <;> cases u <;>
    first
      | rfl
      | (cases it <;> cases iu <;> simp [cleanStage] <;>
          first
            | rfl
            | exact joinsCleanList_comm s.joins _ _ h)

/-- The stage-restricted walk preserves repairability of the joins. -/
theorem walkStage_ok (c : List (StepType × Option Nat)) (s : Stage)
    (h : joinsRepairable s.joins) : joinsRepairable (walkStage c s).joins := by
  induction c generalizing s with
  | nil => exact h
  | cons e c ih => exact ih _ (cleanStage_ok e.1 e.2 s h)

/-- A clean whose fixed point the stage already is stays a fixed point
through the rest of the walk. -/
theorem walkStage_fixed (c : List (StepType × Option Nat)) (t : StepType)
    (i : Option Nat) (s : Stage) (hok : joinsRepairable s.joins)
    (hfix : cleanStage t i s = s) :
    cleanStage t i (walkStage c s) = walkStage c s := by
  induction c generalizing s with
  | nil => exact hfix
  | cons e c ih =>
    show cleanStage t i (walkStage c (cleanStage e.1 e.2 s)) = walkStage c (cleanStage e.1 e.2 s)
    refine ih (cleanStage e.1 e.2 s) (cleanStage_ok e.1 e.2 s hok) ?_
    calc cleanStage t i (cleanStage e.1 e.2 s)
        = cleanStage e.1 e.2 (cleanStage t i s) := cleanStage_comm t e.1 i e.2 s hok
      _ = cleanStage e.1 e.2 s := by rw [hfix]

/-- The stage-restricted walk is idempotent on stages with repairable
joins. -/
theorem walkStage_idem (c : List (StepType × Option Nat)) (s : Stage)
    (h : joinsRepairable s.joins) :
    walkStage c (walkStage c s) = walkStage c s := by
  induction c generalizing s with
  | nil => rfl
  | cons e c ih =>
    have h1 : joinsRepairable (cleanStage e.1 e.2 s).joins := cleanStage_ok e.1 e.2 s h
    have hfix : cleanStage e.1 e.2 (cleanStage e.1 e.2 s) = cleanStage e.1 e.2 s :=
      cleanStage_idem e.1 e.2 s h
    show walkStage c (cleanStage e.1 e.2 (walkStage c (cleanStage e.1 e.2 s))) =
      walkStage c (cleanStage e.1 e.2 s)
    rw [walkStage_fixed c e.1 e.2 _ h1 hfix]
    exact ih _ h1

/-- On a single-stage base query, a boundary-free walk is the
stage-restricted walk followed by the (trivial) nesting cleanup. -/
theorem updateWalk_singleton (chain : List ChainStep) (db : Option Database)
    (tbl : Bool) (s : Stage)
    (hb : ∀ e ∈ chain, ¬(e.prevStageIndex < e.stageIndex)) :
    updateWalk chain ⟨db, tbl, [s]⟩ = ⟨db, tbl, [walkStage (chainTypes chain) s]⟩ := by
  induction chain generalizing s with
  | nil => simp [updateWalk, Query.cleanNesting, cleanNestingStages, walkStage, chainTypes]
  | cons e c ih =>
    rw [updateWalk_cons]
    have hbe : ¬(e.prevStageIndex < e.stageIndex) := hb e (List.mem_cons_self e c)
    rw [if_neg hbe, stepClean_mapCurrent]
    have : Query.mapCurrentStage (cleanStage e.type e.itemIndex) ⟨db, tbl, [s]⟩ =
        ⟨db, tbl, [cleanStage e.type e.itemIndex s]⟩ := rfl
    rw [this, ih _ (fun x hx => hb x (List.mem_cons_of_mem e hx))]
    rfl

/-- Claim C1, amended: when the edited step's chain crosses no stage
boundary and the base query is single-stage with repairable joins, the
forward walk of `update` is idempotent: applying it to its own output
reproduces that output. -/
theorem claim_C1_amended (chain : List ChainStep) (db : Option Database)
    (tbl : Bool) (s : Stage)
    (hb : ∀ e ∈ chain, ¬(e.prevStageIndex < e.stageIndex))
    (hj : joinsRepairable s.joins) :
    updateWalk chain (updateWalk chain ⟨db, tbl, [s]⟩) =
      updateWalk chain ⟨db, tbl, [s]⟩ := by
  rw [updateWalk_singleton chain db tbl s hb,
    updateWalk_singleton chain db tbl _ hb,
    walkStage_idem (chainTypes chain) s hj]

/-- Witness for the amended C1 at a concrete single-stage query and
boundary-free chain. -/
theorem claim_C1_witness :
    (∀ e ∈ ([⟨.filter, none, 0, 0, ⟨none, true, [Stage.empty]⟩⟩,
        ⟨.join, some 0, 0, 0, ⟨none, true, [Stage.empty]⟩⟩] : List ChainStep),
      ¬(e.prevStageIndex < e.stageIndex)) ∧
    joinsRepairable ([⟨false, false, true⟩] : List Join) ∧
    updateWalk
        [⟨.filter, none, 0, 0, ⟨none, true, [Stage.empty]⟩⟩,
          ⟨.join, some 0, 0, 0, ⟨none, true, [Stage.empty]⟩⟩]
        (updateWalk
          [⟨.filter, none, 0, 0, ⟨none, true, [Stage.empty]⟩⟩,
            ⟨.join, some 0, 0, 0, ⟨none, true, [Stage.empty]⟩⟩]
          ⟨none, true, [⟨[⟨false, false, true⟩], [], [true, false], [], [], [], none⟩]⟩) =
      updateWalk
        [⟨.filter, none, 0, 0, ⟨none, true, [Stage.empty]⟩⟩,
          ⟨.join, some 0, 0, 0, ⟨none, true, [Stage.empty]⟩⟩]
        ⟨none, true, [⟨[⟨false, false, true⟩], [], [true, false], [], [], [], none⟩]⟩ :=
  ⟨by decide, by decide,
    claim_C1_amended _ none true _ (by decide) (by decide)⟩

theorem listModifyAt_length {α : Type} (l : List α) (j : Nat) (f : α → α) :
    (listModifyAt l j f).length = l.length := by
  induction l generalizing j with
  | nil => rfl
  | cons a as ih => cases j <;> simp [listModifyAt, ih]

theorem drop_listModifyAt {α : Type} (l : List α) (j : Nat) (f : α → α) :
    (listModifyAt l j f).drop j =
      (match l.drop j with
        | [] => ([] : List α)
        | a :: r => f a :: r) := by
  induction l generalizing j with
  | nil => cases j <;> rfl
  | cons a as ih =>
    cases j with
    | zero => rfl
    | succ m => simpa [listModifyAt] using ih m

theorem stageViews_getElem (q : Query) (j : Nat) (hj : j < q.stages.length) :
    (q.stageViews)[j]? =
      some { q with stages := q.stages.drop (q.stages.length - 1 - j) } := by
  simp [Query.stageViews, List.getElem?_map, List.getElem?_range, hj]

theorem stageViews_length (q : Query) : q.stageViews.length = q.stages.length := by
  simp [Query.stageViews]

/-- When the top-level query's addressed stage view is the stage query, the
`limit` revert produces exactly that stage query with its limit removed. -/
theorem limitRevert_coherent (top : Query) (idx : Int) (q : Query)
    (h : top.stageViewAt idx = some q) :
    limitRevert top idx =
      some (q.mapCurrentStage (fun s => { s with limit := none })) := by
  rcases eq_or_ne idx (-1) with rfl | hne
  · simp [Query.stageViewAt] at h
    obtain ⟨hnil, rfl⟩ := h
    obtain ⟨db, tbl, stages⟩ := top
    cases stages with
    | nil => simp at hnil
    | cons st rest =>
      have hr : ¬((rest.length : Int) < 0) := by omega
      simp [limitRevert, Query.limitToNull, listModifyAt, Query.stageViews,
        List.getElem?_map, List.getElem?_range, Query.mapCurrentStage, hr,
        Nat.lt_succ_self]
  · simp [Query.stageViewAt, hne] at h
    obtain ⟨⟨h0, hlt⟩, rfl⟩ := h
    have hr : ¬(idx < 0) := by omega
    have hnle : ¬((top.stages.length : Int) ≤ idx) := by omega
    have hjt : idx.toNat < top.stages.length := by omega
    simp [limitRevert, Query.limitToNull, hne, hr, hnle, stageViews_length,
      listModifyAt_length, stageViews_getElem, drop_listModifyAt,
      Query.mapCurrentStage, hjt]
    have hb : idx.toNat <
        ({ database := top.database
           hasSourceTable := top.hasSourceTable
           stages := listModifyAt top.stages (top.stages.length - 1 - idx.toNat)
             (fun s => { s with limit := none }) } : Query).stageViews.length := by
      rw [stageViews_length]
      simpa [listModifyAt_length] using hjt
    have h3 := stageViews_getElem
      ({ database := top.database
         hasSourceTable := top.hasSourceTable
         stages := listModifyAt top.stages (top.stages.length - 1 - idx.toNat)
           (fun s => { s with limit := none }) } : Query) idx.toNat
      (by simpa [listModifyAt_length] using hjt)
    rw [Option.some.inj ((List.getElem?_eq_getElem hb).symm.trans h3)]
    simp only [listModifyAt_length, drop_listModifyAt, Query.mk.injEq, and_true, true_and]
    cases List.drop (top.stages.length - 1 - idx.toNat) top.stages <;> rfl

theorem Stage.eta_limit (s : Stage) (h : s.limit = none) :
    ({ s with limit := none } : Stage) = s := by
  cases s
  simp_all

theorem Stage.eta_sorts (s : Stage) (h : s.sorts = []) :
    ({ s with sorts := [] } : Stage) = s := by
  cases s
  simp_all

theorem Stage.eta_summarize (s : Stage) (h1 : s.aggregations = [])
    (h2 : s.breakouts = []) :
    ({ s with breakouts := [], aggregations := [] } : Stage) = s := by
  cases s
  simp_all

theorem Stage.eta_filters (s : Stage) (h : s.filters = []) :
    ({ s with filters := [] } : Stage) = s := by
  cases s
  simp_all

theorem Stage.eta_expressions (s : Stage) (h : s.expressions = []) :
    ({ s with expressions := [] } : Stage) = s := by
  cases s
  simp_all

theorem Stage.eta_joins (s : Stage) (h : s.joins = []) :
    ({ s with joins := [] } : Stage) = s := by
  cases s
  simp_all

theorem revertChain_append (top : Query) (a b : List StepRec) (pq : Option Query) :
    revertChain top (a ++ b) pq = revertChain top a (revertChain top b pq) := by
  simp [revertChain, List.foldr_append]

/-- Reverting the join instances `0..m-1` right-to-left removes every join of
a stage holding `m` joins. -/
theorem revertChain_joins (top q0 : Query) (stageIdx : Nat) (isLast : Bool)
    (opn : String → Bool) (dbq : Option Database) (tblq : Bool) (stq : Stage)
    (restq : List Stage) (m : Nat) (hm : stq.joins.length = m) :
    revertChain top
        ((List.range m).map
          (fun k => getStep top q0 stageIdx isLast opn .join (some k)))
        (some ⟨dbq, tblq, stq :: restq⟩) =
      some ⟨dbq, tblq, { stq with joins := [] } :: restq⟩ := by
  induction m generalizing stq with
  | zero =>
    simp [revertChain, Stage.eta_joins stq (List.length_eq_zero.mp hm)]
  | succ m ih =>
    rw [List.range_succ, List.map_append, revertChain_append]
    simp only [List.map_cons, List.map_nil]
    have hrev : revertChain top
        [getStep top q0 stageIdx isLast opn .join (some m)]
        (some ⟨dbq, tblq, stq :: restq⟩) =
        some ⟨dbq, tblq, { stq with joins := stq.joins.eraseIdx m } :: restq⟩ := by
      simp [revertChain, applyRevert, getStep, stepHasRevert, stepRevert,
        Query.removeJoin, Query.mapCurrentStage]
    rw [hrev]
    have hm2 : ({ stq with joins := stq.joins.eraseIdx m } : Stage).joins.length = m := by
      simp [List.length_eraseIdx_of_lt (by omega : m < stq.joins.length), hm]
    simpa using ih { stq with joins := stq.joins.eraseIdx m } hm2

/-- Reverting a possibly filtered-out single step. -/
theorem revertChain_filter_single (top : Query) (x : StepRec) (pq : Option Query) :
    revertChain top ([x].filter (fun s => s.visible)) pq =
      if x.visible then applyRevert top x pq else pq := by
  by_cases h : x.visible <;> simp [h, revertChain]

/-- Counterexample to claim C4 as stated: on a stage whose sort clause is
active but invalid (aggregations without breakouts), the sort step is not
visible, so reverting only the visible steps leaves the sort clause behind
and does not reproduce the data-only stage query — even though the
top-level query agrees with the stage view. -/
theorem claim_C4_counterexample :
    (Query.stageViewAt
        ⟨some ⟨false, false, false⟩, true, [⟨[], [], [], [true], [], [true], none⟩]⟩
        (getMLv2StageIndex 0 .limit true) =
      some ⟨some ⟨false, false, false⟩, true, [⟨[], [], [], [true], [], [true], none⟩]⟩) ∧
    revertChain
        ⟨some ⟨false, false, false⟩, true, [⟨[], [], [], [true], [], [true], none⟩]⟩
        ((rawSteps
            ⟨some ⟨false, false, false⟩, true, [⟨[], [], [], [true], [], [true], none⟩]⟩
            ⟨some ⟨false, false, false⟩, true, [⟨[], [], [], [true], [], [true], none⟩]⟩
            0 true (fun _ => false)).filter (fun x => x.visible))
        (some ⟨some ⟨false, false, false⟩, true, [⟨[], [], [], [true], [], [true], none⟩]⟩) ≠
      some (dataOnly
        ⟨some ⟨false, false, false⟩, true, [⟨[], [], [], [true], [], [true], none⟩]⟩) := by
  constructor <;> decide

/-- Claim C4, amended: reverting every derived step instance that is visible,
last to first, reproduces the stage's data-only query, provided the
top-level query's addressed stage view agrees with the stage query and every
active step instance of the stage is valid (an active-but-invalid step is
hidden, and its clauses would survive). -/
theorem claim_C4_amended (db : Option Database) (tbl : Bool) (st : Stage)
    (rest : List Stage) (top : Query) (stageIdx : Nat) (isLast : Bool)
    (opn : String → Bool)
    (hview : top.stageViewAt (getMLv2StageIndex stageIdx .limit isLast) =
      some ⟨db, tbl, st :: rest⟩)
    (hav : ∀ x ∈ rawSteps top ⟨db, tbl, st :: rest⟩ stageIdx isLast opn,
      x.active = true → x.valid = true) :
    revertChain top
        ((rawSteps top ⟨db, tbl, st :: rest⟩ stageIdx isLast opn).filter
          (fun x => x.visible))
        (some ⟨db, tbl, st :: rest⟩) =
      some (dataOnly ⟨db, tbl, st :: rest⟩) := by
  have hact : ∀ (t : StepType) (ii : Option Nat),
      (getStep top ⟨db, tbl, st :: rest⟩ stageIdx isLast opn t ii) ∈
        rawSteps top ⟨db, tbl, st :: rest⟩ stageIdx isLast opn →
      (getStep top ⟨db, tbl, st :: rest⟩ stageIdx isLast opn t ii).visible = false →
      stepActive t ⟨db, tbl, st :: rest⟩ ii top (getMLv2StageIndex stageIdx t isLast) = false := by
    intro t ii hmem hvis
    cases hb : stepActive t ⟨db, tbl, st :: rest⟩ ii top (getMLv2StageIndex stageIdx t isLast) with
    | false => rfl
    | true =>
      have hval := hav _ hmem (by simp [getStep, hb])
      simp [getStep, hb] at hval
      simp [getStep, hb, hval] at hvis
  rw [rawSteps_eq]
  rw [show ([getStep top ⟨db, tbl, st :: rest⟩ stageIdx isLast opn .expression none,
      getStep top ⟨db, tbl, st :: rest⟩ stageIdx isLast opn .filter none,
      getStep top ⟨db, tbl, st :: rest⟩ stageIdx isLast opn .summarize none,
      getStep top ⟨db, tbl, st :: rest⟩ stageIdx isLast opn .sort none,
      getStep top ⟨db, tbl, st :: rest⟩ stageIdx isLast opn .limit none] : List StepRec) =
    [getStep top ⟨db, tbl, st :: rest⟩ stageIdx isLast opn .expression none] ++
      [getStep top ⟨db, tbl, st :: rest⟩ stageIdx isLast opn .filter none] ++
      [getStep top ⟨db, tbl, st :: rest⟩ stageIdx isLast opn .summarize none] ++
      [getStep top ⟨db, tbl, st :: rest⟩ stageIdx isLast opn .sort none] ++
      [getStep top ⟨db, tbl, st :: rest⟩ stageIdx isLast opn .limit none] from rfl]
  rw [List.filter_append, List.filter_append, List.filter_append,
    List.filter_append, List.filter_append, List.filter_append]
  rw [revertChain_append, revertChain_append, revertChain_append,
    revertChain_append, revertChain_append, revertChain_append]
  have hlim : revertChain top
      (([getStep top ⟨db, tbl, st :: rest⟩ stageIdx isLast opn .limit none] :
        List StepRec).filter (fun x => x.visible))
      (some ⟨db, tbl, st :: rest⟩) =
      some ⟨db, tbl,
        (⟨st.joins, st.expressions, st.filters, st.aggregations, st.breakouts,
          st.sorts, none⟩ : Stage) :: rest⟩ := by
    rw [revertChain_filter_single]
    by_cases hv : (getStep top ⟨db, tbl, st :: rest⟩ stageIdx isLast opn .limit none).visible
    · rw [if_pos hv]
      have hrc := limitRevert_coherent top (getMLv2StageIndex stageIdx .limit isLast)
        ⟨db, tbl, st :: rest⟩ hview
      simp [applyRevert, getStep, stepHasRevert, stepRevert, hrc,
        Query.mapCurrentStage]
    · rw [if_neg hv]
      have ha := hact .limit none (by rw [rawSteps_eq]; simp)
        (by simpa using hv)
      simp only [stepActive, Query.hasLimit, hview, Query.currentStage,
        List.headD_cons] at ha
      rcases hnl : st.limit with _ | v
      · cases st
        simp_all
      · rw [hnl] at ha
        simp at ha
  have hsort : revertChain top
      (([getStep top ⟨db, tbl, st :: rest⟩ stageIdx isLast opn .sort none] :
        List StepRec).filter (fun x => x.visible))
      (some ⟨db, tbl,
        (⟨st.joins, st.expressions, st.filters, st.aggregations, st.breakouts,
          st.sorts, none⟩ : Stage) :: rest⟩) =
      some ⟨db, tbl,
        (⟨st.joins, st.expressions, st.filters, st.aggregations, st.breakouts,
          [], none⟩ : Stage) :: rest⟩ := by
    rw [revertChain_filter_single]
    by_cases hv : (getStep top ⟨db, tbl, st :: rest⟩ stageIdx isLast opn .sort none).visible
    · rw [if_pos hv]
      simp [applyRevert, getStep, stepHasRevert, stepRevert, Query.clearSort,
        Query.mapCurrentStage]
    · rw [if_neg hv]
      have ha := hact .sort none (by rw [rawSteps_eq]; simp) (by simpa using hv)
      simp only [stepActive, Query.hasSorts, Query.currentStage, List.headD_cons,
        Bool.not_eq_true', Bool.not_eq_false] at ha
      have hs : st.sorts = [] := by simpa [List.isEmpty_iff] using ha
      simp [hs]
  have hsumm : revertChain top
      (([getStep top ⟨db, tbl, st :: rest⟩ stageIdx isLast opn .summarize none] :
        List StepRec).filter (fun x => x.visible))
      (some ⟨db, tbl,
        (⟨st.joins, st.expressions, st.filters, st.aggregations, st.breakouts,
          [], none⟩ : Stage) :: rest⟩) =
      some ⟨db, tbl,
        (⟨st.joins, st.expressions, st.filters, [], [], [], none⟩ : Stage) :: rest⟩ := by
    rw [revertChain_filter_single]
    by_cases hv : (getStep top ⟨db, tbl, st :: rest⟩ stageIdx isLast opn .summarize none).visible
    · rw [if_pos hv]
      by_cases hcc : (!st.aggregations.isEmpty || !st.breakouts.isEmpty) = true
      · simp [applyRevert, getStep, stepHasRevert, stepRevert,
          Query.hasAggregations, Query.hasBreakouts, Query.currentStage,
          Query.clearAggregations, Query.clearBreakouts, Query.mapCurrentStage, hcc]
      · simp only [Bool.or_eq_true, Bool.not_eq_true', Bool.not_eq_false] at hcc
        push_neg at hcc
        have h1 : st.aggregations = [] := by
          simpa [List.isEmpty_iff] using hcc.1
        have h2 : st.breakouts = [] := by
          simpa [List.isEmpty_iff] using hcc.2
        simp [applyRevert, getStep, stepHasRevert, stepRevert,
          Query.hasAggregations, Query.hasBreakouts, Query.currentStage,
          Query.mapCurrentStage, h1, h2]
    · rw [if_neg hv]
      have ha := hact .summarize none (by rw [rawSteps_eq]; simp) (by simpa using hv)
      simp only [stepActive, Query.hasAggregations, Query.hasBreakouts,
        Query.currentStage, List.headD_cons, Bool.or_eq_true, Bool.not_eq_true',
        Bool.not_eq_false] at ha
      have h1 : st.aggregations = [] := by
        simpa [List.isEmpty_iff] using (Bool.or_eq_false_iff.mp ha).1
      have h2 : st.breakouts = [] := by
        simpa [List.isEmpty_iff] using (Bool.or_eq_false_iff.mp ha).2
      simp [h1, h2]
  have hfilt : revertChain top
      (([getStep top ⟨db, tbl, st :: rest⟩ stageIdx isLast opn .filter none] :
        List StepRec).filter (fun x => x.visible))
      (some ⟨db, tbl,
        (⟨st.joins, st.expressions, st.filters, [], [], [], none⟩ : Stage) :: rest⟩) =
      some ⟨db, tbl,
        (⟨st.joins, st.expressions, [], [], [], [], none⟩ : Stage) :: rest⟩ := by
    rw [revertChain_filter_single]
    by_cases hv : (getStep top ⟨db, tbl, st :: rest⟩ stageIdx isLast opn .filter none).visible
    · rw [if_pos hv]
      simp [applyRevert, getStep, stepHasRevert, stepRevert, Query.clearFilters,
        Query.mapCurrentStage]
    · rw [if_neg hv]
      have ha := hact .filter none (by rw [rawSteps_eq]; simp) (by simpa using hv)
      simp only [stepActive, Query.hasFilters, Query.currentStage, List.headD_cons,
        Bool.not_eq_true', Bool.not_eq_false] at ha
      have hs : st.filters = [] := by simpa [List.isEmpty_iff] using ha
      simp [hs]
  have hexpr : revertChain top
      (([getStep top ⟨db, tbl, st :: rest⟩ stageIdx isLast opn .expression none] :
        List StepRec).filter (fun x => x.visible))
      (some ⟨db, tbl,
        (⟨st.joins, st.expressions, [], [], [], [], none⟩ : Stage) :: rest⟩) =
      some ⟨db, tbl,
        (⟨st.joins, [], [], [], [], [], none⟩ : Stage) :: rest⟩ := by
    rw [revertChain_filter_single]
    by_cases hv : (getStep top ⟨db, tbl, st :: rest⟩ stageIdx isLast opn .expression none).visible
    · rw [if_pos hv]
      simp [applyRevert, getStep, stepHasRevert, stepRevert, Query.clearExpressions,
        Query.mapCurrentStage]
    · rw [if_neg hv]
      have ha := hact .expression none (by rw [rawSteps_eq]; simp) (by simpa using hv)
      simp only [stepActive, Query.hasExpressions, Query.currentStage, List.headD_cons,
        Bool.not_eq_true', Bool.not_eq_false] at ha
      have hs : st.expressions = [] := by simpa [List.isEmpty_iff] using ha
      simp [hs]
  have hjoin : revertChain top
      (((List.range ((⟨db, tbl, st :: rest⟩ : Query).joins.length + 1)).map
          (fun k => getStep top ⟨db, tbl, st :: rest⟩ stageIdx isLast opn .join (some k))).filter
        (fun x => x.visible))
      (some ⟨db, tbl, (⟨st.joins, [], [], [], [], [], none⟩ : Stage) :: rest⟩) =
      some ⟨db, tbl, (⟨[], [], [], [], [], [], none⟩ : Stage) :: rest⟩ := by
    have hjq : (⟨db, tbl, st :: rest⟩ : Query).joins = st.joins := rfl
    rw [hjq, List.range_succ, List.map_append, List.filter_append, revertChain_append]
    have hplace : revertChain top
        ((List.map (fun k => getStep top ⟨db, tbl, st :: rest⟩ stageIdx isLast opn .join (some k))
          [st.joins.length]).filter (fun x => x.visible))
        (some ⟨db, tbl, (⟨st.joins, [], [], [], [], [], none⟩ : Stage) :: rest⟩) =
        some ⟨db, tbl, (⟨st.joins, [], [], [], [], [], none⟩ : Stage) :: rest⟩ := by
      simp only [List.map_cons, List.map_nil]
      rw [revertChain_filter_single]
      by_cases hv : (getStep top ⟨db, tbl, st :: rest⟩ stageIdx isLast opn .join
          (some st.joins.length)).visible
      · rw [if_pos hv]
        simp [applyRevert, getStep, stepHasRevert, stepRevert, Query.removeJoin,
          Query.mapCurrentStage, List.eraseIdx_eq_self.mpr (le_refl st.joins.length)]
      · rw [if_neg hv]
    rw [hplace]
    by_cases hjv : stepValid .join ⟨db, tbl, st :: rest⟩ none top
        (getMLv2StageIndex stageIdx .join isLast) = true
    · have hall : ∀ x ∈ (List.range st.joins.length).map
          (fun k => getStep top ⟨db, tbl, st :: rest⟩ stageIdx isLast opn .join (some k)),
          x.visible = true := by
        intro x hx
        obtain ⟨k, hk, rfl⟩ := List.mem_map.mp hx
        have hk2 : k < st.joins.length := List.mem_range.mp hk
        simp only [stepValid] at hjv
        simp [getStep, stepValid, stepActive, Query.joins, Query.currentStage, hjv, hk2]
      rw [List.filter_eq_self.mpr hall]
      exact revertChain_joins top ⟨db, tbl, st :: rest⟩ stageIdx isLast opn db tbl
        ⟨st.joins, [], [], [], [], [], none⟩ rest st.joins.length rfl
    · cases hn : st.joins with
      | nil => simp [hn, revertChain]
      | cons j js =>
        exfalso
        have hmem0 : getStep top ⟨db, tbl, st :: rest⟩ stageIdx isLast opn .join (some 0) ∈
            rawSteps top ⟨db, tbl, st :: rest⟩ stageIdx isLast opn := by
          rw [rawSteps_eq]
          refine List.mem_append.mpr (Or.inl (List.mem_append.mpr (Or.inr ?_)))
          exact List.mem_map.mpr ⟨0, List.mem_range.mpr (by simp [Query.joins, Query.currentStage, hn]), rfl⟩
        have hval := hav _ hmem0 (by
          simp [getStep, stepActive, Query.joins, Query.currentStage, hn])
        simp only [getStep] at hval
        exact hjv (by simpa [stepValid] using hval)
  have hdata : ∀ pq : Option Query, revertChain top
      (([getStep top ⟨db, tbl, st :: rest⟩ stageIdx isLast opn .data none] :
        List StepRec).filter (fun x => x.visible)) pq = pq := by
    intro pq
    rw [revertChain_filter_single]
    by_cases hv : (getStep top ⟨db, tbl, st :: rest⟩ stageIdx isLast opn .data none).visible
    · rw [if_pos hv]
      simp [applyRevert, getStep, stepHasRevert]
    · rw [if_neg hv]
  rw [hlim, hsort, hsumm, hfilt, hexpr, hjoin, hdata]
  simp [dataOnly, Stage.empty]

/-- Witness for the amended C4 at a concrete stage holding a join, a filter,
a sort and a limit. -/
theorem claim_C4_witness :
    (Query.stageViewAt
        ⟨some ⟨true, true, true⟩, true,
          [⟨[⟨true, false, true⟩], [], [true], [], [], [true], some 5⟩]⟩
        (getMLv2StageIndex 0 .limit true) =
      some ⟨some ⟨true, true, true⟩, true,
        [⟨[⟨true, false, true⟩], [], [true], [], [], [true], some 5⟩]⟩) ∧
    (∀ x ∈ rawSteps
        ⟨some ⟨true, true, true⟩, true,
          [⟨[⟨true, false, true⟩], [], [true], [], [], [true], some 5⟩]⟩
        ⟨some ⟨true, true, true⟩, true,
          [⟨[⟨true, false, true⟩], [], [true], [], [], [true], some 5⟩]⟩
        0 true (fun _ => false),
      x.active = true → x.valid = true) ∧
    revertChain
        ⟨some ⟨true, true, true⟩, true,
          [⟨[⟨true, false, true⟩], [], [true], [], [], [true], some 5⟩]⟩
        ((rawSteps
            ⟨some ⟨true, true, true⟩, true,
              [⟨[⟨true, false, true⟩], [], [true], [], [], [true], some 5⟩]⟩
            ⟨some ⟨true, true, true⟩, true,
              [⟨[⟨true, false, true⟩], [], [true], [], [], [true], some 5⟩]⟩
            0 true (fun _ => false)).filter (fun x => x.visible))
        (some ⟨some ⟨true, true, true⟩, true,
          [⟨[⟨true, false, true⟩], [], [true], [], [], [true], some 5⟩]⟩) =
      some (dataOnly ⟨some ⟨true, true, true⟩, true,
        [⟨[⟨true, false, true⟩], [], [true], [], [], [true], some 5⟩]⟩) :=
  ⟨by decide, by decide,
    claim_C4_amended (some ⟨true, true, true⟩) true
      ⟨[⟨true, false, true⟩], [], [true], [], [], [true], some 5⟩ [] _ 0 true
      (fun _ => false) (by decide) (by decide)⟩
